import Mathlib

/-!
Shallow embedding of `src/hypothesis/searchstrategy/collections.py`
(Hypothesis strategy combinators for tuples, lists, sets, frozensets and
fixed-keys dicts), together with proofs of the specification claims.

Modelling conventions:
* Python tuples of templates are Lean `List α` values.
* Python frozensets of templates are duplicate-free lists kept in strictly
  increasing order; this fixes the "deterministic traversal" the spec asks
  for, and value equality of frozensets is equality of the canonical lists.
* Basic forms are the inductive `Basic` (integers, strings, lists, null).
* A child (element) strategy is abstracted by the record
  `SearchStrategyOps`, carrying exactly the operations the composite
  strategies in the source call on their children.
* Failure with `InvalidData` is modelled by `Option.none`.
-/

/-- Basic form: the neutral serialization tree (integers, strings,
homogeneous lists, and a null for primitive strategies that need it). -/
inductive Basic : Type where
  | int (n : Int)
  | str (s : String)
  | list (xs : List Basic)
  | null

/-- Interface of a child strategy, as used by the composite strategies in
`collections.py`: `producible t` says `t` is a template the child's
`produce_template` can return; `simplify`, `to_basic` and `from_basic` are
the child's operations; `from_basic` returns `none` where the Python code
raises `InvalidData`. -/
structure SearchStrategyOps (α : Type) where
  producible : α → Prop
  simplify : α → List α
  to_basic : α → Basic
  from_basic : Basic → Option α
  size_lower_bound : ℕ
  size_upper_bound : ℕ

/-! ## mix_generators

The Python class keeps two stacks of generators plus an optional
`solo_generator` fast path.  A Python generator is modelled by the list of
elements it has yet to yield.  `self.generators` pops from the *end*
(Python `list.pop()`), so we store it reversed: the head of `gensR` is the
generator the next `pop()` returns.  `self.next_batch` is appended to on
the right in Python; we prepend on the left (`nbR` is the Python list
reversed), which makes the Python swap `generators = next_batch;
generators.reverse()` become `gensR := nbR.reverse`. -/

/-- State of a `mix_generators` iterator: the (reversed) pending stack, the
(reversed) next batch, and the solo generator once the fast path engages. -/
structure MixState (α : Type) where
  gensR : List (List α)
  nbR : List (List α)
  solo : Option (List α)

/-- Elements a `mix_generators` state has still to emit; once `solo` is
set the Python code only ever reads `solo_generator`. -/
def MixState.elems : MixState α → List α
  | ⟨gensR, nbR, none⟩ => gensR.flatten ++ nbR.flatten
  | ⟨_, _, some g⟩ => g

/-- The `while self.generators or self.next_batch` loop of `__next__`:
swap in the reversed next batch when the stack is empty, pop a generator,
drop it if exhausted (`StopIteration`), otherwise emit its next element
and push the generator onto the next batch. -/
def mixLoop : List (List α) → List (List α) → Option (α × List (List α) × List (List α))
  | [], [] => none
  | [], b :: bs => mixLoop ((b :: bs).reverse) []
  | [] :: rest, nbR => mixLoop rest nbR
  | (a :: g) :: rest, nbR => some (a, rest, g :: nbR)
termination_by gensR nbR => gensR.length + 2 * nbR.length
decreasing_by all_goals (simp; try omega)

/-- One call of `mix_generators.__next__`: the solo-generator check (which
fires once `len(self.generators + self.next_batch) == 1` and the solo slot
is still empty), then either the solo fast path or the two-stack loop.
Entering the solo path clears the stacks, which the Python code never
reads again. -/
def mixStep : MixState α → Option (α × MixState α)
  | ⟨_, _, some []⟩ => none
  | ⟨gensR, nbR, some (a :: g)⟩ => some (a, ⟨gensR, nbR, some g⟩)
  | ⟨gensR, nbR, none⟩ =>
    if gensR.length + nbR.length = 1 then
      match (gensR.reverse ++ nbR.reverse).head? with
      | none => none
      | some [] => none
      | some (a :: g) => some (a, ⟨[], [], some g⟩)
    else
      match mixLoop gensR nbR with
      | none => none
      | some (a, gens', nb') => some (a, ⟨gens', nb', none⟩)

theorem mixLoop_none_elems {g b : List (List α)} (h : mixLoop g b = none) :
    g.flatten ++ b.flatten = [] := by
  induction g, b using mixLoop.induct with
  | case1 => simp
  | case2 b bs ih =>
    rw [mixLoop] at h
    have h2 : ((b :: bs).reverse.flatten : List α) = [] := by simpa using ih h
    have h3 : ([] : List α).Perm ((b :: bs).flatten) :=
      h2 ▸ (List.reverse_perm (b :: bs)).flatten
    simpa using h3.nil_eq.symm
  | case3 rest nbR ih =>
    rw [mixLoop] at h
    simpa using ih h
  | case4 a g rest nbR => rw [mixLoop] at h; simp at h

theorem mixLoop_some_elems {g b : List (List α)} {a : α}
    {g' b' : List (List α)} (h : mixLoop g b = some (a, g', b')) :
    (a :: (g'.flatten ++ b'.flatten)).Perm (g.flatten ++ b.flatten) := by
  induction g, b using mixLoop.induct with
  | case1 => rw [mixLoop] at h; simp at h
  | case2 b bs ih =>
    rw [mixLoop] at h
    have h2 := ih h
    have h3 : ((b :: bs).reverse.flatten : List α).Perm ((b :: bs).flatten) :=
      (List.reverse_perm (b :: bs)).flatten
    simp only [List.flatten_nil, List.append_nil] at h2 ⊢
    exact h2.trans h3
  | case3 rest nbR ih =>
    rw [mixLoop] at h
    simpa using ih h
  | case4 c g rest nbR =>
    rw [mixLoop] at h
    simp only [Option.some.injEq, Prod.mk.injEq] at h
    obtain ⟨h1, h2, h3⟩ := h
    subst h1; subst h2; subst h3
    simp only [List.flatten_cons, List.cons_append, List.append_assoc]
    exact (List.perm_append_comm_assoc rest.flatten g nbR.flatten).cons c

/-- When exactly one generator remains in the two stacks it is the unique
flattened content of both. -/
theorem single_generator {gensR nbR : List (List α)}
    (h : gensR.length + nbR.length = 1) :
    ∃ g, (gensR.reverse ++ nbR.reverse).head? = some g ∧
      gensR.flatten ++ nbR.flatten = g := by
  rcases gensR with _ | ⟨g, gs⟩
  · rcases nbR with _ | ⟨g, bs⟩
    · simp at h
    · rcases bs with _ | ⟨g2, bs⟩
      · exact ⟨g, by simp, by simp⟩
      · simp at h
  · rcases gs with _ | ⟨g2, gs⟩
    · rcases nbR with _ | ⟨g2, bs⟩
      · exact ⟨g, by simp, by simp⟩
      · simp at h
    · simp at h; omega

theorem mixStep_none_elems {s : MixState α} (h : mixStep s = none) :
    s.elems = [] := by
  obtain ⟨gensR, nbR, solo⟩ := s
  rcases solo with _ | ⟨_ | ⟨a, g⟩⟩
  · rw [mixStep] at h
    by_cases h1 : gensR.length + nbR.length = 1
    · rw [if_pos h1] at h
      obtain ⟨g, hg, hflat⟩ := single_generator (α := α) h1
      rw [hg] at h
      rcases g with _ | ⟨a, g⟩
      · simpa [MixState.elems] using hflat
      · simp at h
    · rw [if_neg h1] at h
      rcases hm : mixLoop gensR nbR with _ | ⟨a, gens', nb'⟩
      · simpa [MixState.elems] using mixLoop_none_elems hm
      · rw [hm] at h; simp at h
  · simp [MixState.elems]
  · rw [mixStep] at h; simp at h

theorem mixStep_some_elems {s : MixState α} {a : α} {s' : MixState α}
    (h : mixStep s = some (a, s')) :
    (a :: s'.elems).Perm s.elems := by
  obtain ⟨gensR, nbR, solo⟩ := s
  rcases solo with _ | ⟨_ | ⟨b, g⟩⟩
  · rw [mixStep] at h
    by_cases h1 : gensR.length + nbR.length = 1
    · rw [if_pos h1] at h
      obtain ⟨g, hg, hflat⟩ := single_generator (α := α) h1
      rw [hg] at h
      rcases g with _ | ⟨b, g⟩
      · simp at h
      · simp only [Option.some.injEq, Prod.mk.injEq] at h
        obtain ⟨rfl, rfl⟩ := h
        simp only [MixState.elems, hflat]
        exact List.Perm.refl _
    · rw [if_neg h1] at h
      rcases hm : mixLoop gensR nbR with _ | ⟨c, gens', nb'⟩
      · rw [hm] at h; simp at h
      · rw [hm] at h
        simp only [Option.some.injEq, Prod.mk.injEq] at h
        obtain ⟨rfl, rfl⟩ := h
        simpa [MixState.elems] using mixLoop_some_elems hm
  · rw [mixStep] at h; simp at h
  · rw [mixStep] at h
    simp only [Option.some.injEq, Prod.mk.injEq] at h
    obtain ⟨rfl, rfl⟩ := h
    simp [MixState.elems]

theorem mixStep_some_length {s : MixState α} {a : α} {s' : MixState α}
    (h : mixStep s = some (a, s')) :
    s'.elems.length < s.elems.length := by
  have := (mixStep_some_elems h).length_eq
  simp only [List.length_cons] at this
  omega

/-- Fully draining a `mix_generators` iterator: repeated `__next__` until
`StopIteration`. -/
def mixDrain (s : MixState α) : List α :=
  match h : mixStep s with
  | none => []
  | some (a, s') => a :: mixDrain s'
termination_by s.elems.length
decreasing_by exact mixStep_some_length h

theorem mixDrain_nil {s : MixState α} (h : mixStep s = none) :
    mixDrain s = [] := by
  rw [mixDrain.eq_def, h]

theorem mixDrain_cons {s : MixState α} {a : α} {s' : MixState α}
    (h : mixStep s = some (a, s')) : mixDrain s = a :: mixDrain s' := by
  rw [mixDrain.eq_def, h]

/-- The `mix_generators` class applied to a list of (finite) generators and
drained to a list: `generators = list(generators)` keeps their order, and
the reversed-stack representation starts from `generators.reverse`. -/
def mix_generators (gs : List (List α)) : List α :=
  mixDrain ⟨gs.reverse, [], none⟩

theorem mixDrain_elems (s : MixState α) : (mixDrain s).Perm s.elems := by
  induction s using mixDrain.induct with
  | case1 s h =>
    rw [mixDrain_nil h, mixStep_none_elems h]
  | case2 s a s' h ih =>
    rw [mixDrain_cons h]
    exact (ih.cons a).trans (mixStep_some_elems h)

/-- The mixed sequence is a permutation of the concatenation of the input
generators' outputs. -/
theorem mix_generators_perm (gs : List (List α)) :
    (mix_generators gs).Perm gs.flatten := by
  have h1 := mixDrain_elems (α := α) ⟨gs.reverse, [], none⟩
  simp only [MixState.elems, List.flatten_nil, List.append_nil] at h1
  exact h1.trans (List.reverse_perm gs).flatten

theorem mix_generators_length (gs : List (List α)) :
    (mix_generators gs).length = (gs.map List.length).sum := by
  have := (mix_generators_perm gs).length_eq
  simpa [List.length_flatten] using this

theorem mem_mix_generators {gs : List (List α)} {a : α} :
    a ∈ mix_generators gs ↔ ∃ g ∈ gs, a ∈ g := by
  rw [(mix_generators_perm gs).mem_iff, List.mem_flatten]

/-! ### Round structure of the mixer on equal-length generators -/

theorem mixLoop_all_nil {gs : List (List α)} (h : ∀ g ∈ gs, g = []) :
    mixLoop gs [] = none := by
  induction gs with
  | nil => rw [mixLoop]
  | cons g rest ih =>
    have hg := h g (by simp)
    subst hg
    rw [mixLoop]
    exact ih (fun x hx => h x (by simp [hx]))

/-- Draining a pure solo state emits the solo generator's elements. -/
theorem mixDrain_solo (g : List α) : mixDrain ⟨[], [], some g⟩ = g := by
  induction g with
  | nil => exact mixDrain_nil (by rw [mixStep])
  | cons a g' ih =>
    have hstep : mixStep (⟨[], [], some (a :: g')⟩ : MixState α) =
        some (a, ⟨[], [], some g'⟩) := by rw [mixStep]
    rw [mixDrain_cons hstep, ih]

/-- One full round: with at least two generators pending and all of them
nonempty, the mixer emits each one's head in stack order and queues the
tails. -/
theorem mixDrain_round (gensR nbR : List (List α))
    (hlen : gensR.length + nbR.length ≠ 1)
    (hne : ∀ g ∈ gensR, g ≠ []) :
    mixDrain ⟨gensR, nbR, none⟩ =
      gensR.filterMap List.head? ++
        mixDrain ⟨[], (gensR.map List.tail).reverse ++ nbR, none⟩ := by
  induction gensR generalizing nbR with
  | nil => simp
  | cons g rest ih =>
    have hg : g ≠ [] := hne g (by simp)
    obtain ⟨a, g', rfl⟩ := List.exists_cons_of_ne_nil hg
    have hstep : mixStep (⟨(a :: g') :: rest, nbR, none⟩ : MixState α) =
        some (a, ⟨rest, g' :: nbR, none⟩) := by
      rw [mixStep, if_neg (by simp at hlen ⊢; omega), mixLoop]
    rw [mixDrain_cons hstep]
    have ih2 := ih (g' :: nbR) (by simp at hlen ⊢; omega)
      (fun x hx => hne x (List.mem_cons_of_mem _ hx))
    rw [ih2]
    simp [List.append_assoc]

/-- Restarting the loop from a pending next batch is the same as starting
from the reversed batch (provided the solo fast path does not fire). -/
theorem mixDrain_swap (nb : List (List α)) (h : nb.length ≠ 1) (hnb : nb ≠ []) :
    mixDrain ⟨[], nb, none⟩ = mixDrain ⟨nb.reverse, [], none⟩ := by
  obtain ⟨b, bs, rfl⟩ := List.exists_cons_of_ne_nil hnb
  have h1 : mixStep (⟨[], b :: bs, none⟩ : MixState α) =
      mixStep ⟨(b :: bs).reverse, [], none⟩ := by
    rw [mixStep, mixStep]
    rw [if_neg (by simpa using h), if_neg (by simp; simpa using h)]
    rw [mixLoop]
  rcases hs : mixStep (⟨(b :: bs).reverse, [], none⟩ : MixState α) with _ | ⟨a, s'⟩
  · rw [mixDrain_nil (h1.trans hs), mixDrain_nil hs]
  · rw [mixDrain_cons (h1.trans hs), mixDrain_cons hs]

/-- The fair round-robin schedule: `N` rounds, each taking the current head
of every live generator and queueing the tails. -/
def roundsOf : ℕ → List (List α) → List α
  | 0, _ => []
  | n + 1, gs => gs.filterMap List.head? ++ roundsOf n (gs.map List.tail)

theorem roundsOf_nil (n : ℕ) : roundsOf n ([] : List (List α)) = [] := by
  induction n with
  | zero => rw [roundsOf]
  | succ n ih => rw [roundsOf]; simpa using ih

theorem roundsOf_singleton (g : List α) (hg : g.length = N) :
    roundsOf N [g] = g := by
  induction N generalizing g with
  | zero =>
    rw [roundsOf]
    exact (List.length_eq_zero.mp hg).symm
  | succ n ih =>
    have hgne : g ≠ [] := by intro he; rw [he] at hg; simp at hg
    obtain ⟨a, g', rfl⟩ := List.exists_cons_of_ne_nil hgne
    rw [roundsOf]
    have : g'.length = n := by simpa using hg
    simp [ih g' this]

theorem mixDrain_eq_roundsOf (N : ℕ) (gs : List (List α))
    (hN : ∀ g ∈ gs, g.length = N) (hK : 2 ≤ gs.length) :
    mixDrain ⟨gs, [], none⟩ = roundsOf N gs := by
  induction N generalizing gs with
  | zero =>
    have hnil : ∀ g ∈ gs, g = [] := fun g hg => List.length_eq_zero.mp (hN g hg)
    have hstep : mixStep (⟨gs, [], none⟩ : MixState α) = none := by
      rw [mixStep, if_neg (by simp; omega), mixLoop_all_nil hnil]
    rw [mixDrain_nil hstep, roundsOf]
  | succ n ih =>
    have hne : ∀ g ∈ gs, g ≠ [] := by
      intro g hg he
      have := hN g hg
      rw [he] at this
      simp at this
    rw [mixDrain_round gs [] (by omega) hne]
    have e1 : ((gs.map List.tail).reverse ++ ([] : List (List α))) =
        (gs.map List.tail).reverse := List.append_nil _
    rw [e1]
    rw [mixDrain_swap ((gs.map List.tail).reverse) (by simp; omega)
      (by simp; rintro rfl; simp at hK)]
    rw [List.reverse_reverse]
    rw [ih (gs.map List.tail)
      (by intro g hg; simp at hg; obtain ⟨x, hx, rfl⟩ := hg
          have := hN x hx; simp [this])
      (by simpa using hK)]
    rw [roundsOf]

/-- On equal-length inputs the mixed sequence is exactly the round-robin
schedule over the reversed generator list. -/
theorem mix_generators_eq_roundsOf (N : ℕ) (gs : List (List α))
    (hN : ∀ g ∈ gs, g.length = N) :
    mix_generators gs = roundsOf N gs.reverse := by
  rcases gs with _ | ⟨g, gs'⟩
  · rw [mix_generators]
    have hstep : mixStep (⟨[], [], none⟩ : MixState α) = none := by
      rw [mixStep, if_neg (by simp), mixLoop]
    simp only [List.reverse_nil]
    rw [mixDrain_nil hstep, roundsOf_nil]
  rcases gs' with _ | ⟨g2, gs''⟩
  · rw [mix_generators]
    simp only [List.reverse_cons, List.reverse_nil, List.nil_append]
    have hg := hN g (by simp)
    rcases g with _ | ⟨a, g'⟩
    · have hstep : mixStep (⟨[[]], [], none⟩ : MixState α) = none := by
        rw [mixStep, if_pos (by simp)]
        rfl
      rw [mixDrain_nil hstep, roundsOf_singleton [] hg]
    · have hstep : mixStep (⟨[a :: g'], [], none⟩ : MixState α) =
          some (a, ⟨[], [], some g'⟩) := by
        rw [mixStep, if_pos (by simp)]
        rfl
      rw [mixDrain_cons hstep, mixDrain_solo, roundsOf_singleton (a :: g') hg]
  · rw [mix_generators]
    exact mixDrain_eq_roundsOf N _
      (by intro x hx; apply hN; simp at hx ⊢; tauto) (by simp)

/-! ### Fairness of the schedule -/

theorem take_length_add_append (l1 l2 : List α) (n : ℕ) :
    (l1 ++ l2).take (l1.length + n) = l1 ++ l2.take n := by
  induction l1 with
  | nil => simp
  | cons a t ih =>
    have h1 : (a :: t).length + n = (t.length + n) + 1 := by simp; omega
    rw [h1, List.cons_append, List.take_succ_cons, ih, List.cons_append]

theorem length_filterMap_head (gs : List (List α)) (h : ∀ g ∈ gs, g ≠ []) :
    (gs.filterMap List.head?).length = gs.length := by
  induction gs with
  | nil => simp
  | cons g rest ih =>
    obtain ⟨a, g', rfl⟩ := List.exists_cons_of_ne_nil (h g (by simp))
    simp only [List.filterMap_cons, List.head?_cons, List.length_cons]
    rw [ih (fun x hx => h x (by simp [hx]))]

/-- Taking `k` whole batches of the schedule is the `k`-round schedule. -/
theorem roundsOf_take (k N : ℕ) (gs : List (List α)) (hk : k ≤ N)
    (hN : ∀ g ∈ gs, g.length = N) :
    (roundsOf N gs).take (k * gs.length) = roundsOf k gs := by
  induction k generalizing N gs with
  | zero => rw [roundsOf]; simp
  | succ k ih =>
    obtain ⟨m, rfl⟩ : ∃ m, N = m + 1 := ⟨N - 1, by omega⟩
    have hne : ∀ g ∈ gs, g ≠ [] := by
      intro g hg he
      have := hN g hg
      rw [he] at this
      simp at this
    rw [roundsOf, roundsOf]
    have hlen : (gs.filterMap List.head?).length = gs.length :=
      length_filterMap_head gs hne
    have h2 : (k + 1) * gs.length = (gs.filterMap List.head?).length + k * gs.length := by
      rw [hlen]; ring
    rw [h2, take_length_add_append]
    congr 1
    have htails : ∀ g ∈ gs.map List.tail, g.length = m := by
      intro g hg
      simp only [List.mem_map] at hg
      obtain ⟨x, hx, rfl⟩ := hg
      have := hN x hx
      simp [this]
    have h3 := ih m (gs.map List.tail) (by omega) htails
    simpa using h3

/-- One batch of heads followed by `k`-prefixes of the tails is a
permutation of the `(k+1)`-prefixes. -/
theorem heads_tails_take_perm (k : ℕ) (gs : List (List α))
    (h : ∀ g ∈ gs, g ≠ []) :
    (gs.filterMap List.head? ++
      ((gs.map List.tail).map (fun g => g.take k)).flatten).Perm
      ((gs.map (fun g => g.take (k + 1))).flatten) := by
  induction gs with
  | nil => simp
  | cons g rest ih =>
    obtain ⟨a, g', rfl⟩ := List.exists_cons_of_ne_nil (h g (by simp))
    simp only [List.filterMap_cons, List.head?_cons, List.map_cons,
      List.tail_cons, List.flatten_cons, List.take_succ_cons, List.cons_append]
    refine List.Perm.cons a ?_
    have hrest := ih (fun x hx => h x (by simp [hx]))
    exact (List.perm_append_comm_assoc _ _ _).trans
      (List.Perm.append_left _ hrest)

/-- The `k`-round schedule is a permutation of the `k`-prefixes of the
generators. -/
theorem roundsOf_perm (k : ℕ) (gs : List (List α))
    (h : ∀ g ∈ gs, k ≤ g.length) :
    (roundsOf k gs).Perm ((gs.map (fun g => g.take k)).flatten) := by
  induction k generalizing gs with
  | zero =>
    have h0 : ((gs.map (fun g => g.take 0)).flatten : List α) = [] := by
      rw [List.flatten_eq_nil_iff]
      intro x hx
      simp only [List.mem_map] at hx
      obtain ⟨y, _, rfl⟩ := hx
      simp
    rw [roundsOf, h0]
  | succ k ih =>
    rw [roundsOf]
    have hne : ∀ g ∈ gs, g ≠ [] := by
      intro g hg he
      have := h g hg
      simp [he] at this
    have htails : ∀ g ∈ gs.map List.tail, k ≤ g.length := by
      intro g hg
      simp only [List.mem_map] at hg
      obtain ⟨x, hx, rfl⟩ := hg
      have := h x hx
      simp only [List.length_tail]
      omega
    exact (List.Perm.append_left _ (ih (gs.map List.tail) htails)).trans
      (heads_tails_take_perm k gs hne)

/-! ## Serialization helpers -/

/-- Modelled from the spec: `check_data_type(list, value)` (defined in
`strategies.py`, outside the embedded file) raises `InvalidData` unless the
basic value is of list kind, in which case the underlying list is used. -/
def check_data_type_list : Basic → Option (List Basic)
  | Basic.list xs => some xs
  | _ => none

/-- Sequencing of child `from_basic` results: the first child failure
(`InvalidData`) propagates, as an uncaught Python exception would. -/
def seqOption : List (Option α) → Option (List α)
  | [] => some []
  | o :: os => o.bind (fun a => (seqOption os).map (fun as => a :: as))

/-! ## TupleStrategy

Tuple templates of arity N are lists of N child templates.  We embed the
`tuple_type == tuple` case; named-record constructors only repackage the
same data. -/

/-- Templates a tuple strategy's `produce_template` can return: one child
template drawn from each child strategy, in order. -/
def TupleStrategy.Producible (cs : List (SearchStrategyOps α)) (x : List α) : Prop :=
  List.Forall₂ (fun c t => c.producible t) cs x

/-- The generator `simplify_single(i)` inside `TupleStrategy.simplify`:
each simplification of the i-th element substituted into position i. -/
def TupleStrategy.simplify_single (cs : List (SearchStrategyOps α)) (x : List α)
    (i : ℕ) : List (List α) :=
  match cs[i]?, x[i]? with
  | some c, some xi => (c.simplify xi).map (fun s => x.set i s)
  | _, _ => []

/-- `TupleStrategy.simplify`: one generator per index (`for i in
hrange(0, len(x))`), combined with `mix_generators`. -/
def TupleStrategy.simplify (cs : List (SearchStrategyOps α)) (x : List α) :
    List (List α) :=
  mix_generators ((List.range x.length).map (TupleStrategy.simplify_single cs x))

/-- `TupleStrategy.to_basic`: the children's basic forms, in position
order. -/
def TupleStrategy.to_basic (cs : List (SearchStrategyOps α)) (x : List α) :
    List Basic :=
  (cs.zip x).map (fun p => p.1.to_basic p.2)

/-- `TupleStrategy.from_basic`: `check_length(len(self.element_strategies),
value)` (modelled from the spec: `InvalidData` unless the input list length
equals the number of children), then the children's `from_basic` zipped in
position order. -/
def TupleStrategy.from_basic (cs : List (SearchStrategyOps α))
    (value : List Basic) : Option (List α) :=
  if value.length = cs.length then
    seqOption ((cs.zip value).map (fun p => p.1.from_basic p.2))
  else none

/-- `TupleStrategy.__init__`: `size_lower_bound` starts at 1 and is
multiplied by each child's. -/
def TupleStrategy.size_lower_bound (cs : List (SearchStrategyOps α)) : ℕ :=
  (cs.map SearchStrategyOps.size_lower_bound).prod

/-- `TupleStrategy.__init__`: `size_upper_bound` starts at 1 and is
multiplied by each child's. -/
def TupleStrategy.size_upper_bound (cs : List (SearchStrategyOps α)) : ℕ :=
  (cs.map SearchStrategyOps.size_upper_bound).prod

/-! ## ListStrategy

`ListStrategy` keeps an `element_strategy` only when its descriptor is
non-empty (built by `one_of_strategies`, outside the embedded file); we
abstract it as an optional `SearchStrategyOps`.  List templates are Python
tuples of child templates, i.e. `List α`. -/

/-- Templates a list strategy's `produce_template` can return: any tuple of
element templates (the empty tuple on an empty descriptor). -/
def ListStrategy.Producible (e : Option (SearchStrategyOps α)) (x : List α) : Prop :=
  match e with
  | none => x = []
  | some el => ∀ t ∈ x, el.producible t

/-- `ListStrategy.simplify`, with `σ` the element strategy's `simplify`:
nothing for the empty tuple; otherwise the empty tuple, then for each index
the single deletion (when length > 1) immediately followed by that index's
element-wise shrinks, then the adjacent pair deletions. -/
def ListStrategy.simplify (σ : α → List α) (x : List α) : List (List α) :=
  if x.isEmpty then [] else
    [[]] ++
    (x.enum.map (fun p =>
      (if 1 < x.length then [x.eraseIdx p.1] else []) ++
      (σ p.2).map (fun s => x.set p.1 s))).flatten ++
    ((List.range (x.length - 1)).map (fun i => (x.eraseIdx i).eraseIdx i))

/-- `ListStrategy.to_basic`: `[]` on the empty descriptor, else the element
basic forms. -/
def ListStrategy.to_basic (e : Option (SearchStrategyOps α)) (x : List α) : Basic :=
  match e with
  | none => Basic.list []
  | some el => Basic.list (x.map el.to_basic)

/-- `ListStrategy.from_basic`: `check_data_type(list, value)`, then the
empty tuple on the empty descriptor (whatever the list contents), else the
tuple of element `from_basic` results. -/
def ListStrategy.from_basic (e : Option (SearchStrategyOps α)) (value : Basic) :
    Option (List α) :=
  match check_data_type_list value with
  | none => none
  | some vs =>
    match e with
    | none => some []
    | some el => seqOption (vs.map el.from_basic)

/-- `ListStrategy.__init__` sets 1/1 size bounds only on the empty
descriptor; otherwise they are inherited from the `SearchStrategy` base
class, which is outside the embedded file (modelled from the spec: an
unspecified pair, supplied here as a parameter). -/
def ListStrategy.size_bounds (e : Option (SearchStrategyOps α))
    (inherited : ℕ × ℕ) : ℕ × ℕ :=
  match e with
  | none => (1, 1)
  | some _ => inherited

/-! ## SetStrategy

Set templates are Python frozensets of child templates, modelled as
duplicate-free lists sorted in strictly increasing order (a canonical form
of the value-equal frozenset); `for v in x` traverses this canonical
order, instantiating the spec's "some deterministic traversal". -/

/-- Adding one element to a canonical frozenset (`set.add`): no-op when
present, ordered insertion otherwise. -/
def fsInsert [LinearOrder α] (w : α) (y : List α) : List α :=
  if w ∈ y then y else List.orderedInsert (· ≤ ·) w y

/-- Building a frozenset from a list of child templates (`frozenset(...)`):
deduplicate into the canonical order. -/
def toFrozen [LinearOrder α] (l : List α) : List α :=
  l.foldr fsInsert []

/-- `SetStrategy.simplify`, with `σ` the element strategy's `simplify`:
nothing for the empty frozenset; otherwise the empty frozenset, then for
each element `v` in traversal order the removal `x \ {v}` immediately
followed by the substitutions `(x \ {v}) ∪ {w}` for each child
simplification `w` of `v`. -/
def SetStrategy.simplify [LinearOrder α] (σ : α → List α) (x : List α) :
    List (List α) :=
  if x.isEmpty then [] else
    [[]] ++
    (x.map (fun v =>
      (x.erase v) :: (σ v).map (fun w => fsInsert w (x.erase v)))).flatten

/-- `SetStrategy.to_basic`: `[]` on the empty descriptor, else the element
basic forms in traversal order. -/
def SetStrategy.to_basic (e : Option (SearchStrategyOps α)) (x : List α) : Basic :=
  match e with
  | none => Basic.list []
  | some el => Basic.list (x.map el.to_basic)

/-- `SetStrategy.from_basic`: on the empty descriptor the empty frozenset
is returned before any check; otherwise `check_data_type(list, value)` and
the frozenset of the element `from_basic` results. -/
def SetStrategy.from_basic [LinearOrder α] (e : Option (SearchStrategyOps α))
    (value : Basic) : Option (List α) :=
  match e with
  | none => some []
  | some el =>
    match check_data_type_list value with
    | none => none
    | some vs => (seqOption (vs.map el.from_basic)).map toFrozen

/-- `SetStrategy.__init__`: 1 on the empty descriptor, else two to the
element strategy's lower bound. -/
def SetStrategy.size_lower_bound (e : Option (SearchStrategyOps α)) : ℕ :=
  match e with
  | none => 1
  | some el => 2 ^ el.size_lower_bound

/-- `SetStrategy.__init__`: 1 on the empty descriptor, else two to the
element strategy's upper bound. -/
def SetStrategy.size_upper_bound (e : Option (SearchStrategyOps α)) : ℕ :=
  match e with
  | none => 1
  | some el => 2 ^ el.size_upper_bound

/-! ## FrozenSetStrategy and FixedKeysDictStrategy -/

/-- Modelled from the spec: `FrozenSetStrategy` is a `MappedSearchStrategy`
(defined outside the embedded file) over the set strategy, delegating
template operations verbatim; only `reify` packs differently. -/
def FrozenSetStrategy.to_basic [LinearOrder α] (e : Option (SearchStrategyOps α)) :
    List α → Basic :=
  SetStrategy.to_basic e

/-- Modelled from the spec: `FrozenSetStrategy.from_basic` delegates to the
set strategy. -/
def FrozenSetStrategy.from_basic [LinearOrder α] (e : Option (SearchStrategyOps α)) :
    Basic → Option (List α) :=
  SetStrategy.from_basic e

/-- Modelled from the spec: `FixedKeysDictStrategy` is a
`MappedSearchStrategy` over the tuple strategy built from the value
strategies in sorted-key order, delegating `to_basic` verbatim. -/
def FixedKeysDictStrategy.to_basic (keys : List κ)
    (cs : List (SearchStrategyOps α)) : List α → List Basic :=
  TupleStrategy.to_basic cs

/-- Modelled from the spec: `FixedKeysDictStrategy.from_basic` delegates to
the inner tuple strategy (whose arity is the number of keys). -/
def FixedKeysDictStrategy.from_basic (keys : List κ)
    (cs : List (SearchStrategyOps α)) : List Basic → Option (List α) :=
  TupleStrategy.from_basic cs

/-- `FixedKeysDictStrategy.pack`: zip the sorted keys with the value
tuple. -/
def FixedKeysDictStrategy.pack (keys : List κ) (value : List α) : List (κ × α) :=
  keys.zip value

/-- Modelled from the spec: the mapped strategy's size bounds are the inner
tuple strategy's. -/
def FixedKeysDictStrategy.size_lower_bound (keys : List κ)
    (cs : List (SearchStrategyOps α)) : ℕ :=
  TupleStrategy.size_lower_bound cs

/-- Modelled from the spec: the mapped strategy's size bounds are the inner
tuple strategy's. -/
def FixedKeysDictStrategy.size_upper_bound (keys : List κ)
    (cs : List (SearchStrategyOps α)) : ℕ :=
  TupleStrategy.size_upper_bound cs

/-! ## Round-trip lemmas -/

theorem seqOption_from_to (el : SearchStrategyOps α) (x : List α)
    (hrt : ∀ t, el.producible t → el.from_basic (el.to_basic t) = some t)
    (hx : ∀ t ∈ x, el.producible t) :
    seqOption ((x.map el.to_basic).map el.from_basic) = some x := by
  induction x with
  | nil => rfl
  | cons t x' ih =>
    simp only [List.map_cons, seqOption]
    rw [hrt t (hx t (by simp)), ih (fun u hu => hx u (by simp [hu]))]
    rfl

theorem tuple_seq_aux (cs : List (SearchStrategyOps α)) (x : List α)
    (hrt : ∀ c ∈ cs, ∀ t, c.producible t → c.from_basic (c.to_basic t) = some t)
    (hx : List.Forall₂ (fun c t => c.producible t) cs x) :
    seqOption ((cs.zip (TupleStrategy.to_basic cs x)).map
      (fun p => p.1.from_basic p.2)) = some x := by
  induction cs generalizing x with
  | nil => cases hx; rfl
  | cons c cs' ih =>
    cases x with
    | nil => cases hx
    | cons t x' =>
      rw [List.forall₂_cons] at hx
      obtain ⟨hct, htail⟩ := hx
      have ihx := ih x' (fun d hd u hu => hrt d (by simp [hd]) u hu) htail
      simp only [TupleStrategy.to_basic, List.zip, List.zipWith_cons_cons,
        List.map_cons, seqOption] at ihx ⊢
      rw [hrt c (by simp) t hct, ihx]
      rfl

theorem tuple_round_trip (cs : List (SearchStrategyOps α)) (x : List α)
    (hrt : ∀ c ∈ cs, ∀ t, c.producible t → c.from_basic (c.to_basic t) = some t)
    (hx : TupleStrategy.Producible cs x) :
    TupleStrategy.from_basic cs (TupleStrategy.to_basic cs x) = some x := by
  have hlen : cs.length = x.length := List.Forall₂.length_eq hx
  rw [TupleStrategy.from_basic, if_pos]
  · exact tuple_seq_aux cs x hrt hx
  · simp [TupleStrategy.to_basic, hlen]

theorem list_round_trip (e : Option (SearchStrategyOps α)) (x : List α)
    (hrt : ∀ el, e = some el → ∀ t, el.producible t →
      el.from_basic (el.to_basic t) = some t)
    (hx : ListStrategy.Producible e x) :
    ListStrategy.from_basic e (ListStrategy.to_basic e x) = some x := by
  cases e with
  | none =>
    simp only [ListStrategy.Producible] at hx
    subst hx
    rfl
  | some el =>
    simp only [ListStrategy.to_basic, ListStrategy.from_basic, check_data_type_list]
    exact seqOption_from_to el x (hrt el rfl) hx

/-- Inserting below every element of a list prepends. -/
theorem fsInsert_head [LinearOrder α] (a : α) (l : List α)
    (h : ∀ b ∈ l, a < b) : fsInsert a l = a :: l := by
  rw [fsInsert, if_neg]
  · cases l with
    | nil => rfl
    | cons b t => rw [List.orderedInsert, if_pos (le_of_lt (h b (by simp)))]
  · intro hmem
    exact lt_irrefl a (h a hmem)

theorem toFrozen_cons [LinearOrder α] (a : α) (t : List α) :
    toFrozen (a :: t) = fsInsert a (toFrozen t) := rfl

/-- Canonicalizing an already canonical (strictly sorted) frozenset is the
identity. -/
theorem toFrozen_sorted [LinearOrder α] (x : List α)
    (hs : List.Sorted (· < ·) x) : toFrozen x = x := by
  induction x with
  | nil => rfl
  | cons a t ih =>
    rw [List.sorted_cons] at hs
    rw [toFrozen_cons, ih hs.2, fsInsert_head a t hs.1]

/-- Templates a set strategy's `produce_template` can return: a canonical
frozenset of producible element templates (the empty frozenset on an empty
descriptor). -/
def SetStrategy.Producible [LinearOrder α] (e : Option (SearchStrategyOps α))
    (x : List α) : Prop :=
  match e with
  | none => x = []
  | some el => (∀ t ∈ x, el.producible t) ∧ List.Sorted (· < ·) x

theorem set_round_trip [LinearOrder α] (e : Option (SearchStrategyOps α))
    (x : List α)
    (hrt : ∀ el, e = some el → ∀ t, el.producible t →
      el.from_basic (el.to_basic t) = some t)
    (hx : SetStrategy.Producible e x) :
    SetStrategy.from_basic e (SetStrategy.to_basic e x) = some x := by
  cases e with
  | none =>
    simp only [SetStrategy.Producible] at hx
    subst hx
    rfl
  | some el =>
    obtain ⟨hprod, hsort⟩ := hx
    simp only [SetStrategy.to_basic, SetStrategy.from_basic, check_data_type_list]
    rw [seqOption_from_to el x (hrt el rfl) hprod]
    simp [toFrozen_sorted x hsort]

/-! ## Concrete child strategy used by witnesses -/

/-- A simple child strategy over natural-number templates: every template
is producible, non-zero templates shrink to 0 (as the integer strategy
does first), basic form is the integer node. -/
def natChild : SearchStrategyOps ℕ :=
  ⟨fun _ => True, fun n => if n = 0 then [] else [0],
   fun n => Basic.int n,
   fun b => match b with | Basic.int n => some n.toNat | _ => none, 1, 1⟩

/-! ## Claims -/

/-- C1 counterexample: for template (1, 2, 3) with the element shrinker
sending every non-zero n to [0] (the integer strategy's first shrink), the
candidate at index 2 of `ListStrategy.simplify` is the element-wise shrink
(0, 2, 3) and not the claimed second single deletion (1, 3): single
deletions are not all emitted before element-wise shrinks. -/
theorem list_simplify_grouped_order_refuted :
    (ListStrategy.simplify (fun n => if n = 0 then [] else [0]) [1, 2, 3])[2]? =
        some [0, 2, 3] ∧
    some ([0, 2, 3] : List ℕ) ≠ some [1, 3] :=
  ⟨by decide, by decide⟩

/-- C1 amended: the empty tuple comes first and the adjacent-pair deletions
come last, but single deletions are not grouped before element-wise
shrinks: for each index in order, the single deletion at that index is
immediately followed by that index's element-wise shrinks.  For template
(1, 2, 3) and any element shrinker σ the order is (), (2,3), shrinks of
position 0, (1,3), shrinks of position 1, (1,2), shrinks of position 2,
then (3,) and (1,). -/
theorem list_simplify_interleaved_order (σ : ℕ → List ℕ) :
    ListStrategy.simplify σ [1, 2, 3] =
      [[], [2, 3]] ++ (σ 1).map (fun s => [s, 2, 3]) ++
      [[1, 3]] ++ (σ 2).map (fun s => [1, s, 3]) ++
      [[1, 2]] ++ (σ 3).map (fun s => [1, 2, s]) ++
      [[3], [1]] := by
  simp [ListStrategy.simplify, List.enum, List.enumFrom, List.range_succ]

/-- C5 counterexample: for the frozenset template {2, 5} (traversed in the
canonical order 2, 5) with the element shrinker sending every non-zero n
to [0], the candidate at index 2 of `SetStrategy.simplify` is the
substitution {0, 5} and not the claimed second removal {2}: removals are
not all emitted before substitutions. -/
theorem set_simplify_grouped_order_refuted :
    (SetStrategy.simplify (fun n => if n = 0 then [] else [0]) [2, 5])[2]? =
        some [0, 5] ∧
    some ([0, 5] : List ℕ) ≠ some [2] :=
  ⟨by decide, by decide⟩

/-- C5 amended: the empty frozenset comes first, but removals are not
grouped before substitutions: for each element v in traversal order, the
removal t \ {v} is immediately followed by v's substitution candidates
(t \ {v}) ∪ {s}.  For template {2, 5} and any element shrinker σ the
order is {}, {5}, substitutions for 2, {2}, substitutions for 5. -/
theorem set_simplify_interleaved_order (σ : ℕ → List ℕ) :
    SetStrategy.simplify σ [2, 5] =
      [[], [5]] ++ (σ 2).map (fun w => fsInsert w [5]) ++
      [[2]] ++ (σ 5).map (fun w => fsInsert w [2]) := by
  simp [SetStrategy.simplify, List.erase]

/-- C2: for every producible template of each of the tuple, list, set,
frozen-set and fixed-keys-map strategies, `from_basic` of `to_basic` gives
back the template, provided every child strategy satisfies the same
round-trip law on its own producible templates. -/
theorem composite_round_trip [LinearOrder α] {κ : Type} (keys : List κ)
    (cs : List (SearchStrategyOps α)) (e : Option (SearchStrategyOps α))
    (hcs : ∀ c ∈ cs, ∀ t, c.producible t → c.from_basic (c.to_basic t) = some t)
    (he : ∀ el, e = some el → ∀ t, el.producible t →
      el.from_basic (el.to_basic t) = some t) :
    (∀ x, TupleStrategy.Producible cs x →
      TupleStrategy.from_basic cs (TupleStrategy.to_basic cs x) = some x) ∧
    (∀ x, ListStrategy.Producible e x →
      ListStrategy.from_basic e (ListStrategy.to_basic e x) = some x) ∧
    (∀ x, SetStrategy.Producible e x →
      SetStrategy.from_basic e (SetStrategy.to_basic e x) = some x) ∧
    (∀ x, SetStrategy.Producible e x →
      FrozenSetStrategy.from_basic e (FrozenSetStrategy.to_basic e x) = some x) ∧
    (∀ x, TupleStrategy.Producible cs x →
      FixedKeysDictStrategy.from_basic keys cs
        (FixedKeysDictStrategy.to_basic keys cs x) = some x) :=
  ⟨fun x hx => tuple_round_trip cs x hcs hx,
   fun x hx => list_round_trip e x he hx,
   fun x hx => set_round_trip e x he hx,
   fun x hx => set_round_trip e x he hx,
   fun x hx => tuple_round_trip cs x hcs hx⟩

theorem composite_round_trip_witness :
    TupleStrategy.from_basic [natChild, natChild]
        (TupleStrategy.to_basic [natChild, natChild] [3, 4]) = some [3, 4] ∧
    SetStrategy.from_basic (some natChild)
        (SetStrategy.to_basic (some natChild) [2, 5]) = some [2, 5] := by
  have h := composite_round_trip (κ := String) ["a", "b"] [natChild, natChild]
    (some natChild) ?_ ?_
  · exact ⟨h.1 [3, 4]
      (List.Forall₂.cons trivial (List.Forall₂.cons trivial List.Forall₂.nil)),
      h.2.2.1 [2, 5] ⟨fun t _ => trivial, by decide⟩⟩
  · intro c hc t _
    simp only [List.mem_cons, List.not_mem_nil, or_false] at hc
    rcases hc with rfl | rfl <;> simp [natChild]
  · intro el hel t _
    injection hel with h2
    subst h2
    simp [natChild]

/-- C4 counterexample: with an empty descriptor, `ListStrategy.from_basic`
accepts the non-empty list [3] (returning the empty template) and
`SetStrategy.from_basic` even accepts the non-list basic 3, while the
claim demands an `InvalidData` failure on everything but the empty list. -/
theorem empty_descriptor_from_basic_accepts_nonempty :
    ListStrategy.from_basic (none : Option (SearchStrategyOps ℕ))
        (Basic.list [Basic.int 3]) = some [] ∧
    SetStrategy.from_basic (none : Option (SearchStrategyOps ℕ))
        (Basic.int 3) = some [] :=
  ⟨rfl, rfl⟩

/-- C4 amended: with an empty descriptor, the list strategy's `from_basic`
returns the empty template on every list basic, of any length, and fails
with `InvalidData` only on non-list basics; the set strategy's
`from_basic` returns the empty frozenset on every basic value and never
fails. -/
theorem empty_descriptor_from_basic_behavior (vs : List Basic) (v : Basic)
    (hv : ∀ xs, v ≠ Basic.list xs) :
    ListStrategy.from_basic (none : Option (SearchStrategyOps ℕ))
        (Basic.list vs) = some [] ∧
    ListStrategy.from_basic (none : Option (SearchStrategyOps ℕ)) v = none ∧
    SetStrategy.from_basic (none : Option (SearchStrategyOps ℕ)) v = some [] := by
  refine ⟨rfl, ?_, rfl⟩
  cases v with
  | int n => rfl
  | str s => rfl
  | list xs => exact absurd rfl (hv xs)
  | null => rfl

theorem empty_descriptor_from_basic_behavior_witness :
    (∀ xs, Basic.int 3 ≠ Basic.list xs) ∧
    ListStrategy.from_basic (none : Option (SearchStrategyOps ℕ))
      (Basic.int 3) = none :=
  ⟨fun _ h => Basic.noConfusion h,
   (empty_descriptor_from_basic_behavior [] (Basic.int 3)
     (fun _ h => Basic.noConfusion h)).2.1⟩

/-- C10: the tuple strategy over zero children yields no simplifications of
the empty tuple: mixing an empty collection of generators is immediately
exhausted. -/
theorem tuple_simplify_arity_zero (α : Type) :
    TupleStrategy.simplify ([] : List (SearchStrategyOps α)) [] = [] ∧
    mix_generators ([] : List (List α)) = [] := by
  have h : ∀ (β : Type), mix_generators ([] : List (List β)) = [] := by
    intro β
    rw [mix_generators]
    refine mixDrain_nil ?_
    rw [mixStep, if_neg (by simp), mixLoop_all_nil (by simp)]
  refine ⟨?_, h α⟩
  rw [TupleStrategy.simplify]
  simpa using h (List α)

/-- C3: mixing K generators of N elements each, the output is a
permutation of the multiset union of the inputs, its length is K·N, and
every prefix of length k·K is a permutation of the k-prefixes of the
inputs: each input generator contributes exactly k elements to it. -/
theorem mix_generators_fairness {α : Type} (gs : List (List α)) (K N : ℕ)
    (hK : gs.length = K) (hN : ∀ g ∈ gs, g.length = N) :
    (mix_generators gs).Perm gs.flatten ∧
    (mix_generators gs).length = K * N ∧
    ∀ k, k ≤ N →
      ((mix_generators gs).take (k * K)).Perm
        ((gs.map (fun g => g.take k)).flatten) := by
  subst hK
  refine ⟨mix_generators_perm gs, ?_, ?_⟩
  · rw [mix_generators_length]
    have hrep : gs.map List.length = List.replicate gs.length N :=
      List.eq_replicate_iff.mpr ⟨by simp, by
        intro b hb
        simp only [List.mem_map] at hb
        obtain ⟨g, hg, rfl⟩ := hb
        exact hN g hg⟩
    rw [hrep, List.sum_const_nat]
  · intro k hk
    rw [mix_generators_eq_roundsOf N gs hN]
    have hrev : ∀ g ∈ gs.reverse, g.length = N := by
      intro g hg
      exact hN g (by simpa using hg)
    have h1 : k * gs.length = k * gs.reverse.length := by simp
    rw [h1, roundsOf_take k N gs.reverse hk hrev]
    refine (roundsOf_perm k gs.reverse ?_).trans ?_
    · intro g hg
      rw [hrev g hg]
      exact hk
    · rw [List.map_reverse]
      exact (List.reverse_perm _).flatten

theorem mix_generators_fairness_witness :
    (mix_generators [[0, 1], [2, 3], [4, 5]] : List ℕ).length = 3 * 2 :=
  (mix_generators_fairness [[0, 1], [2, 3], [4, 5]] 3 2 rfl (by
    intro g hg
    simp only [List.mem_cons, List.not_mem_nil, or_false] at hg
    rcases hg with rfl | rfl | rfl <;> rfl)).2.1

/-- C6: on a template of matching arity, every candidate yielded by the
tuple strategy's simplify has the same length, holds a child
simplification of the original element in exactly one changed position,
agrees with the input everywhere else, and is never the input itself
(provided no child simplify re-emits its own input). -/
theorem tuple_simplify_one_position (cs : List (SearchStrategyOps α)) (x : List α)
    (hlen : x.length = cs.length)
    (hni : ∀ (i : ℕ) (c : SearchStrategyOps α) (xi : α),
      cs[i]? = some c → x[i]? = some xi → xi ∉ c.simplify xi) :
    ∀ y ∈ TupleStrategy.simplify cs x,
      y.length = x.length ∧ y ≠ x ∧
      ∃ (i : ℕ) (c : SearchStrategyOps α) (xi s : α),
        cs[i]? = some c ∧ x[i]? = some xi ∧
        s ∈ c.simplify xi ∧ s ≠ xi ∧ y = x.set i s ∧ y[i]? = some s ∧
        ∀ j, j ≠ i → y[j]? = x[j]? := by
  intro y hy
  rw [TupleStrategy.simplify, mem_mix_generators] at hy
  obtain ⟨gen, hgen, hygen⟩ := hy
  simp only [List.mem_map, List.mem_range] at hgen
  obtain ⟨i, hi, rfl⟩ := hgen
  have hic : i < cs.length := hlen ▸ hi
  have hcsome : cs[i]? = some cs[i] := List.getElem?_eq_getElem hic
  have hxsome : x[i]? = some x[i] := List.getElem?_eq_getElem hi
  simp only [TupleStrategy.simplify_single, hcsome, hxsome] at hygen
  obtain ⟨s, hs, rfl⟩ := List.mem_map.mp hygen
  have hsne : s ≠ x[i] := by
    intro he
    exact hni i cs[i] x[i] hcsome hxsome (he ▸ hs)
  have hyi : (x.set i s)[i]? = some s := List.getElem?_set_self hi
  have hyne : x.set i s ≠ x := by
    intro he
    have h2 : (x.set i s)[i]? = x[i]? := by rw [he]
    rw [hyi, hxsome] at h2
    exact hsne (Option.some.inj h2)
  exact ⟨List.length_set x i s, hyne,
    i, cs[i], x[i], s, hcsome, hxsome, hs, hsne, rfl, hyi,
    fun j hj => List.getElem?_set_ne (fun he => hj he.symm)⟩

theorem tuple_simplify_one_position_witness :
    ([7, 0] : List ℕ).length = ([7, 3] : List ℕ).length ∧
      ([7, 0] : List ℕ) ≠ [7, 3] := by
  have hmem : ([7, 0] : List ℕ) ∈
      TupleStrategy.simplify [natChild, natChild] [7, 3] := by
    rw [TupleStrategy.simplify, mem_mix_generators]
    refine ⟨TupleStrategy.simplify_single [natChild, natChild] [7, 3] 1, ?_, ?_⟩
    · simp only [List.mem_map, List.mem_range]
      exact ⟨1, by decide, rfl⟩
    · decide
  have h := tuple_simplify_one_position [natChild, natChild] [7, 3] rfl
    (by
      intro i c xi hc hxi
      rcases i with _ | _ | i
      · simp only [List.getElem?_cons_zero, Option.some.injEq] at hc hxi
        subst hc
        subst hxi
        decide
      · simp only [List.getElem?_cons_succ, List.getElem?_cons_zero,
          Option.some.injEq] at hc hxi
        subst hc
        subst hxi
        decide
      · simp at hc) [7, 0] hmem
  exact ⟨h.1, h.2.1⟩

theorem seqOption_of_forall₂ (l : List (Option α)) (ts : List α)
    (h : List.Forall₂ (fun o t => o = some t) l ts) :
    seqOption l = some ts := by
  induction h with
  | nil => rfl
  | cons h1 _ ih => simp [seqOption, h1, ih]

/-- C7: the tuple strategy's from_basic fails with InvalidData when the
input list's length differs from the arity, and otherwise returns the
children's from_basic results in position order; the fixed-keys map
strategy over K sorted keys delegates to its inner tuple strategy and
likewise fails on any list whose length differs from K. -/
theorem from_basic_length_check {κ : Type} (keys : List κ)
    (cs : List (SearchStrategyOps α)) (hkeys : keys.length = cs.length) :
    (∀ value : List Basic, value.length ≠ cs.length →
      TupleStrategy.from_basic cs value = none) ∧
    (∀ (value : List Basic) (ts : List α), value.length = cs.length →
      List.Forall₂ (fun (p : SearchStrategyOps α × Basic) t =>
        p.1.from_basic p.2 = some t) (cs.zip value) ts →
      TupleStrategy.from_basic cs value = some ts) ∧
    (∀ value : List Basic, value.length ≠ keys.length →
      FixedKeysDictStrategy.from_basic keys cs value = none) := by
  refine ⟨?_, ?_, ?_⟩
  · intro value hv
    rw [TupleStrategy.from_basic, if_neg hv]
  · intro value ts hv h
    rw [TupleStrategy.from_basic, if_pos hv]
    exact seqOption_of_forall₂ _ ts (List.forall₂_map_left_iff.mpr h)
  · intro value hv
    rw [FixedKeysDictStrategy.from_basic, TupleStrategy.from_basic,
      if_neg (by omega)]

theorem from_basic_length_check_witness :
    TupleStrategy.from_basic [natChild, natChild] [Basic.int 3] = none ∧
    FixedKeysDictStrategy.from_basic ["a", "b"] [natChild, natChild]
      [Basic.int 3] = none := by
  have h := from_basic_length_check (κ := String) ["a", "b"]
    [natChild, natChild] rfl
  exact ⟨h.1 [Basic.int 3] (by decide), h.2.2 [Basic.int 3] (by decide)⟩

/-! ## Simplify drain lengths -/

theorem flatten_map_length {ι : Type u} {β : Type v} (l : List ι) (F : ι → List β)
    (c : ℕ) (g : ι → ℕ) (h : ∀ v ∈ l, (F v).length = c + g v) :
    ((l.map F).flatten).length = c * l.length + (l.map g).sum := by
  induction l with
  | nil => simp
  | cons v t ih =>
    simp only [List.map_cons, List.flatten_cons, List.length_append,
      List.length_cons, List.sum_cons]
    rw [h v (by simp), ih (fun w hw => h w (by simp [hw]))]
    ring

theorem enumFrom_map_snd {β : Type v} (g : α → β) :
    ∀ (n : ℕ) (l : List α), ((l.enumFrom n).map (fun p => g p.2)) = l.map g
  | _, [] => rfl
  | n, a :: t => by
    simp only [List.enumFrom, List.map_cons]
    rw [enumFrom_map_snd g (n + 1) t]

theorem tuple_simplify_single_length_cons (c : SearchStrategyOps α)
    (cs : List (SearchStrategyOps α)) (a : α) (x : List α) (i : ℕ) :
    (TupleStrategy.simplify_single (c :: cs) (a :: x) (i + 1)).length =
      (TupleStrategy.simplify_single cs x i).length := by
  simp only [TupleStrategy.simplify_single, List.getElem?_cons_succ]
  cases cs[i]? <;> cases x[i]? <;> simp

theorem tuple_simplify_single_sum (cs : List (SearchStrategyOps α))
    (x : List α) (hlen : x.length = cs.length) :
    ((List.range x.length).map
      (fun i => (TupleStrategy.simplify_single cs x i).length)).sum =
      ((cs.zip x).map (fun p => (p.1.simplify p.2).length)).sum := by
  induction cs generalizing x with
  | nil =>
    have hx : x = [] := List.length_eq_zero.mp (by simpa using hlen)
    subst hx
    simp
  | cons c cs' ih =>
    cases x with
    | nil => simp at hlen
    | cons a x' =>
      have hlen' : x'.length = cs'.length := by simpa using hlen
      rw [List.zip_cons_cons, List.map_cons, List.sum_cons,
        show (a :: x').length = x'.length + 1 from rfl,
        List.range_succ_eq_map, List.map_cons, List.sum_cons, List.map_map]
      congr 1
      · simp [TupleStrategy.simplify_single]
      · rw [← ih x' hlen']
        congr 1
        refine List.map_congr_left ?_
        intro i _
        exact tuple_simplify_single_length_cons c cs' a x' i

theorem list_simplify_length (σ : α → List α) (x : List α) (hx : x ≠ []) :
    (ListStrategy.simplify σ x).length =
      1 + (if 1 < x.length then x.length else 0) +
        (x.map (fun t => (σ t).length)).sum + (x.length - 1) := by
  rw [ListStrategy.simplify, if_neg (by simpa using hx)]
  simp only [List.length_append, List.length_cons, List.length_nil,
    List.length_map, List.length_range]
  rw [flatten_map_length x.enum _ (if 1 < x.length then 1 else 0)
    (fun p => (σ p.2).length) ?_]
  · rw [List.enum, enumFrom_map_snd (fun t => (σ t).length) 0 x]
    simp only [List.enumFrom_length]
    by_cases h1 : 1 < x.length
    · simp only [h1, if_true]
      omega
    · simp only [h1, if_false]
      omega
  · intro p _
    by_cases h1 : 1 < x.length
    · simp only [h1, if_true, List.length_append, List.length_cons,
        List.length_nil, List.length_map]
      try omega
    · simp only [h1, if_false, List.length_append, List.length_nil,
        List.length_map]
      try omega

theorem set_simplify_length [LinearOrder α] (σ : α → List α) (x : List α)
    (hx : x ≠ []) :
    (SetStrategy.simplify σ x).length =
      1 + x.length + (x.map (fun v => (σ v).length)).sum := by
  rw [SetStrategy.simplify, if_neg (by simpa using hx)]
  simp only [List.length_append, List.length_cons, List.length_nil]
  rw [flatten_map_length x _ 1 (fun v => (σ v).length)
    (fun v _ => by simp only [List.length_cons, List.length_map]; omega)]
  omega

/-- C8: fully draining each lazy simplify sequence terminates, with an
exactly computed finite length: the mixer drains to the total length of
its input generators, and the tuple, list and set simplify sequences
drain to the stated finite sums of their children's (finite) simplify
sequence lengths. -/
theorem simplify_drain_finite {α : Type} [LinearOrder α] :
    (∀ gs : List (List α),
      (mix_generators gs).length = (gs.map List.length).sum) ∧
    (∀ (cs : List (SearchStrategyOps α)) (x : List α), x.length = cs.length →
      (TupleStrategy.simplify cs x).length =
        ((cs.zip x).map (fun p => (p.1.simplify p.2).length)).sum) ∧
    (∀ (σ : α → List α) (x : List α), x ≠ [] →
      (ListStrategy.simplify σ x).length =
        1 + (if 1 < x.length then x.length else 0) +
          (x.map (fun t => (σ t).length)).sum + (x.length - 1)) ∧
    (∀ (σ : α → List α) (x : List α), x ≠ [] →
      (SetStrategy.simplify σ x).length =
        1 + x.length + (x.map (fun v => (σ v).length)).sum) := by
  refine ⟨mix_generators_length, ?_, list_simplify_length, set_simplify_length⟩
  intro cs x hlen
  rw [TupleStrategy.simplify, mix_generators_length, List.map_map]
  exact tuple_simplify_single_sum cs x hlen

theorem simplify_drain_finite_witness :
    (TupleStrategy.simplify [natChild] [5]).length =
      (([natChild].zip [5]).map (fun p => (p.1.simplify p.2).length)).sum ∧
    (ListStrategy.simplify natChild.simplify [1, 2, 3]).length =
      1 + (if 1 < ([1, 2, 3] : List ℕ).length then ([1, 2, 3] : List ℕ).length else 0) +
        (([1, 2, 3] : List ℕ).map (fun t => (natChild.simplify t).length)).sum +
        (([1, 2, 3] : List ℕ).length - 1) := by
  have h := simplify_drain_finite (α := ℕ)
  exact ⟨h.2.1 [natChild] [5] rfl,
    h.2.2.1 natChild.simplify [1, 2, 3] (by decide)⟩

/-! ## Size bounds -/

theorem nat_one_le_prod (l : List ℕ) (h : ∀ a ∈ l, 1 ≤ a) : 1 ≤ l.prod := by
  induction l with
  | nil => simp
  | cons a t ih =>
    rw [List.prod_cons]
    have h1 := h a (by simp)
    have h2 := ih (fun b hb => h b (by simp [hb]))
    calc 1 = 1 * 1 := by ring
    _ ≤ a * t.prod := Nat.mul_le_mul h1 h2

theorem tuple_size_bounds_le (cs : List (SearchStrategyOps α))
    (h : ∀ c ∈ cs, c.size_lower_bound ≤ c.size_upper_bound) :
    TupleStrategy.size_lower_bound cs ≤ TupleStrategy.size_upper_bound cs := by
  induction cs with
  | nil => exact le_refl _
  | cons c t ih =>
    simp only [TupleStrategy.size_lower_bound, TupleStrategy.size_upper_bound,
      List.map_cons, List.prod_cons] at ih ⊢
    exact Nat.mul_le_mul (h c (by simp)) (ih (fun d hd => h d (by simp [hd])))

/-- C9: for each of the four composite constructors, the size bounds
satisfy lower ≤ upper and lower ≥ 1, given children whose bounds do; the
tuple (and delegating fixed-keys map) bounds are the products of the
children's, the set bounds are two to the element strategy's bounds. -/
theorem composite_size_bounds {α : Type} {κ : Type} (keys : List κ)
    (cs : List (SearchStrategyOps α)) (e : Option (SearchStrategyOps α))
    (inherited : ℕ × ℕ)
    (hcs : ∀ c ∈ cs, 1 ≤ c.size_lower_bound ∧
      c.size_lower_bound ≤ c.size_upper_bound)
    (he : ∀ el, e = some el → el.size_lower_bound ≤ el.size_upper_bound)
    (hinh : 1 ≤ inherited.1 ∧ inherited.1 ≤ inherited.2) :
    (1 ≤ TupleStrategy.size_lower_bound cs ∧
      TupleStrategy.size_lower_bound cs ≤ TupleStrategy.size_upper_bound cs) ∧
    (1 ≤ (ListStrategy.size_bounds e inherited).1 ∧
      (ListStrategy.size_bounds e inherited).1 ≤
        (ListStrategy.size_bounds e inherited).2) ∧
    (1 ≤ SetStrategy.size_lower_bound e ∧
      SetStrategy.size_lower_bound e ≤ SetStrategy.size_upper_bound e) ∧
    (1 ≤ FixedKeysDictStrategy.size_lower_bound keys cs ∧
      FixedKeysDictStrategy.size_lower_bound keys cs ≤
        FixedKeysDictStrategy.size_upper_bound keys cs) := by
  have htuple : 1 ≤ TupleStrategy.size_lower_bound cs ∧
      TupleStrategy.size_lower_bound cs ≤ TupleStrategy.size_upper_bound cs := by
    constructor
    · refine nat_one_le_prod _ ?_
      intro a ha
      simp only [List.mem_map] at ha
      obtain ⟨c, hc, rfl⟩ := ha
      exact (hcs c hc).1
    · exact tuple_size_bounds_le cs (fun c hc => (hcs c hc).2)
  refine ⟨htuple, ?_, ?_, htuple⟩
  · cases e with
    | none => exact ⟨le_refl 1, le_refl 1⟩
    | some el => exact hinh
  · cases e with
    | none => exact ⟨le_refl 1, le_refl 1⟩
    | some el =>
      exact ⟨Nat.one_le_two_pow, Nat.pow_le_pow_right (by omega) (he el rfl)⟩

theorem composite_size_bounds_witness :
    1 ≤ TupleStrategy.size_lower_bound [natChild, natChild] ∧
      TupleStrategy.size_lower_bound [natChild, natChild] ≤
        TupleStrategy.size_upper_bound [natChild, natChild] :=
  (composite_size_bounds (κ := String) ["a", "b"] [natChild, natChild]
    (some natChild) (1, 1)
    (by
      intro c hc
      simp only [List.mem_cons, List.not_mem_nil, or_false] at hc
      rcases hc with rfl | rfl <;> exact ⟨le_refl 1, le_refl 1⟩)
    (by
      intro el hel
      injection hel with h2
      subst h2
      exact le_refl 1)
    ⟨le_refl 1, le_refl 1⟩).1

theorem list_simplify_interleaved_order_witness :
    ListStrategy.simplify natChild.simplify [1, 2, 3] =
      [[], [2, 3]] ++ (natChild.simplify 1).map (fun s => [s, 2, 3]) ++
      [[1, 3]] ++ (natChild.simplify 2).map (fun s => [1, s, 3]) ++
      [[1, 2]] ++ (natChild.simplify 3).map (fun s => [1, 2, s]) ++
      [[3], [1]] :=
  list_simplify_interleaved_order natChild.simplify

theorem set_simplify_interleaved_order_witness :
    SetStrategy.simplify natChild.simplify [2, 5] =
      [[], [5]] ++ (natChild.simplify 2).map (fun w => fsInsert w [5]) ++
      [[2]] ++ (natChild.simplify 5).map (fun w => fsInsert w [2]) :=
  set_simplify_interleaved_order natChild.simplify

theorem tuple_simplify_arity_zero_witness :
    TupleStrategy.simplify ([] : List (SearchStrategyOps ℕ)) [] = [] ∧
    mix_generators ([] : List (List ℕ)) = [] :=
  tuple_simplify_arity_zero ℕ
